import Mathlib

/-!
Shallow embedding of the harmonic-progression engine
(src/ear_training/modules/progressions.py) and of the tone synthesizer
(src/ear_training/ui/audio_player.py) of the ear-training repository,
with theorems settling the specification claims about them.

Python integers are modelled as Lean Int (with Int.emod / Int.ediv for
Python's sign-of-divisor % and floor //), Python floats whose values are
exact integers as Nat/Int, rational float computations as Rat, and
genuinely real-valued float computations (frequencies, audio samples) as
real numbers.  Random draws are modelled as explicit index streams:
random.choice(l) with draw d yields l[d mod len(l)].
-/

namespace EarTraining

/-- Chord quality: the second component of each ChordNumber enum value in
progressions.py. -/
inductive Quality where
  | major | minor | diminished | augmented | dominant7 | maj7 | m7 | m7b5
  deriving DecidableEq, Repr

/-- Roman-numeral chord numbers, the ChordNumber enum of progressions.py,
in source definition order. -/
inductive ChordNumber where
  | I | IMAJ7 | II | IIM7 | III | IIIM7 | IIIAUG | III7
  | IV | IVMAJ7 | V | V7 | VI | VIM7 | VII | VIIM7B5
  deriving DecidableEq, Repr

/-- First component of the enum value: root offset in semitones from tonic. -/
def chordRoot : ChordNumber → ℤ
  | .I => 0 | .IMAJ7 => 0
  | .II => 2 | .IIM7 => 2
  | .III => 4 | .IIIM7 => 4 | .IIIAUG => 4 | .III7 => 4
  | .IV => 5 | .IVMAJ7 => 5
  | .V => 7 | .V7 => 7
  | .VI => 9 | .VIM7 => 9
  | .VII => 11 | .VIIM7B5 => 11

/-- Second component of the enum value: the chord quality. -/
def chordQuality : ChordNumber → Quality
  | .I => .major | .IMAJ7 => .maj7
  | .II => .minor | .IIM7 => .m7
  | .III => .minor | .IIIM7 => .m7 | .IIIAUG => .augmented | .III7 => .dominant7
  | .IV => .major | .IVMAJ7 => .maj7
  | .V => .major | .V7 => .dominant7
  | .VI => .minor | .VIM7 => .m7
  | .VII => .diminished | .VIIM7B5 => .m7b5

/-- The intervals dictionary of get_chord_notes: canonical ascending
semitone intervals per quality. -/
def intervalsFor : Quality → List ℤ
  | .major => [0, 4, 7]
  | .minor => [0, 3, 7]
  | .diminished => [0, 3, 6]
  | .augmented => [0, 4, 8]
  | .dominant7 => [0, 4, 7, 10]
  | .maj7 => [0, 4, 7, 11]
  | .m7 => [0, 3, 7, 10]
  | .m7b5 => [0, 3, 6, 10]

/-- The inversion rotation of get_chord_notes: if the (already reduced)
inversion is positive, rotate the interval list, adding an octave to every
wrapped element; otherwise leave it unchanged. -/
def rotateIntervals (chord_intervals : List ℤ) (inv : ℤ) : List ℤ :=
  if 0 < inv then
    chord_intervals.drop inv.toNat ++ (chord_intervals.take inv.toNat).map (· + 12)
  else chord_intervals

/-- ProgressionTrainer.get_chord_notes: semitone offsets of a chord at a
given inversion.  The inversion is reduced modulo the number of chord
tones (Python % on a positive modulus, i.e. Int.emod), the interval list
is rotated, and the root is added to every element. -/
def get_chord_notes (chord : ChordNumber) (inversion : ℤ) : List ℤ :=
  (rotateIntervals (intervalsFor (chordQuality chord))
      (inversion % ((intervalsFor (chordQuality chord)).length : ℤ))).map
    (chordRoot chord + ·)

/-- A chord always has 3 or 4 tones, so the interval list is nonempty. -/
lemma intervalsFor_length_pos (q : Quality) : 0 < (intervalsFor q).length := by
  cases q <;> decide

/-- get_chord_notes only depends on the inversion through its residue
modulo the chord size. -/
lemma get_chord_notes_emod (chord : ChordNumber) (i : ℤ) :
    get_chord_notes chord i =
      get_chord_notes chord (i % ((intervalsFor (chordQuality chord)).length : ℤ)) := by
  simp only [get_chord_notes]
  rw [Int.emod_emod_of_dvd _ dvd_rfl]

/-- C4: get_chord_notes computes the negative-safe residue k of the
inversion modulo the number n of chord tones, returns the
root-plus-intervals base sequence unchanged at k = 0 and otherwise the
rotation base[k:] ++ (base[:k] with 12 added to each element), and the
returned sequence is strictly ascending. -/
theorem c4_get_chord_notes_spec (chord : ChordNumber) (inversion : ℤ) :
    (get_chord_notes chord inversion =
      (fun base k =>
          if k = (0 : ℤ) then base
          else base.drop k.toNat ++ (base.take k.toNat).map (· + 12))
        ((intervalsFor (chordQuality chord)).map (chordRoot chord + ·))
        (inversion % ((intervalsFor (chordQuality chord)).length : ℤ)))
    ∧ List.Pairwise (· < ·) (get_chord_notes chord inversion) := by
  rw [get_chord_notes_emod]
  have h0 : 0 ≤ inversion % ((intervalsFor (chordQuality chord)).length : ℤ) :=
    Int.emod_nonneg _ (by cases chord <;> decide)
  have hlt : inversion % ((intervalsFor (chordQuality chord)).length : ℤ)
      < ((intervalsFor (chordQuality chord)).length : ℤ) :=
    Int.emod_lt_of_pos _ (by cases chord <;> decide)
  revert h0 hlt
  generalize inversion % ((intervalsFor (chordQuality chord)).length : ℤ) = e
  intro h0 hlt
  cases chord <;> norm_num [chordQuality, intervalsFor] at hlt <;>
    interval_cases e <;> decide

/-- C1 (amended): adding the chord size n to the inversion leaves
get_chord_notes unchanged, both as absolute semitone sequences and
(consequently) per voice modulo 12; the inversion is reduced mod n, so no
octave transposition occurs. -/
theorem c1_inversion_periodicity (chord : ChordNumber) (k : ℤ) :
    get_chord_notes chord (k + ((intervalsFor (chordQuality chord)).length : ℤ)) =
      get_chord_notes chord k
    ∧ (get_chord_notes chord (k + ((intervalsFor (chordQuality chord)).length : ℤ))).map
        (fun x => x % 12) = (get_chord_notes chord k).map (fun x => x % 12) := by
  have h : get_chord_notes chord (k + ((intervalsFor (chordQuality chord)).length : ℤ)) =
      get_chord_notes chord k := by
    rw [get_chord_notes_emod, get_chord_notes_emod chord k]
    congr 1
    cases chord <;> norm_num [chordQuality, intervalsFor]
  exact ⟨h, by rw [h]⟩

/-- C1 counterexample: at chord I and k = 0 (n = 3 chord tones), the two
voicings the claim asserts to be distinct are in fact equal as absolute
semitone sequences. -/
theorem c1_counterexample :
    get_chord_notes ChordNumber.I (0 + 3) = get_chord_notes ChordNumber.I 0 := by
  decide

/-! ## Voice-leading optimizer
(_calculate_optimal_voice_distance and _select_best_inversion) -/

/-- The octave transpositions range(-2, 3) searched for every candidate
note. -/
def octaveOffsets : List ℤ := [-2, -1, 0, 1, 2]

/-- Comparison against the running best of the inner search; none plays
the role of the initial float infinity. -/
def betterDistance (distance : ℕ) (best : Option (ℕ × ℕ)) : Bool :=
  match best with
  | none => true
  | some q => decide (distance < q.2)

/-- One octave-offset trial of the inner loop of
_calculate_optimal_voice_distance: keep the (index, distance) pair
whenever the distance strictly improves the running best. -/
def octaveStep (prev_note : ℤ) (next_idx : ℕ) (next_note : ℤ)
    (b : Option (ℕ × ℕ)) (octave_offset : ℤ) : Option (ℕ × ℕ) :=
  let target_note := next_note + octave_offset * 12
  let distance := (target_note - prev_note).natAbs
  if betterDistance distance b then some (next_idx, distance) else b

/-- Inner loop of _calculate_optimal_voice_distance for one candidate
note: try each octave offset in range(-2, 3). -/
def updateBest (prev_note : ℤ) (next_idx : ℕ) (next_note : ℤ)
    (best : Option (ℕ × ℕ)) : Option (ℕ × ℕ) :=
  octaveOffsets.foldl (octaveStep prev_note next_idx next_note) best

/-- One candidate of the middle loop of _calculate_optimal_voice_distance:
skip it if already assigned to an earlier previous-chord note, otherwise
run the octave search on it. -/
def scanStep (prev_note : ℤ) (assigned : Finset ℕ) (b : Option (ℕ × ℕ))
    (p : ℕ × ℤ) : Option (ℕ × ℕ) :=
  if p.1 ∈ assigned then b else updateBest prev_note p.1 p.2 b

/-- Middle loop of _calculate_optimal_voice_distance: scan the enumerated
candidate notes of the next chord. -/
def findBestCandidate (prev_note : ℤ) (next_notes : List ℤ)
    (assigned : Finset ℕ) : Option (ℕ × ℕ) :=
  next_notes.enum.foldl (scanStep prev_note assigned) none

/-- Outer loop of _calculate_optimal_voice_distance: process the previous
chord's notes in order, accumulating the best distance found for each and
claiming the chosen candidate index. -/
def voiceDistanceGo (next_notes : List ℤ) : List ℤ → Finset ℕ → ℕ
  | [], _ => 0
  | prev_note :: rest, assigned =>
    match findBestCandidate prev_note next_notes assigned with
    | none => voiceDistanceGo next_notes rest assigned
    | some q => q.2 + voiceDistanceGo next_notes rest (insert q.1 assigned)

/-- ProgressionTrainer._calculate_optimal_voice_distance: total greedy
voice-assignment distance from previous_notes to next_notes.  All
distances are integer semitone counts, so the float total of the source is
a natural number. -/
def calculate_optimal_voice_distance (previous_notes next_notes : List ℤ) : ℕ :=
  voiceDistanceGo next_notes previous_notes ∅

/-- One step of the _select_best_inversion loop: replace the running best
(inversion, distance) pair when the strict comparison fires; none is the
initial float infinity. -/
def invStep (cost : ℕ → ℕ) (acc : ℕ × Option ℕ) (i : ℕ) : ℕ × Option ℕ :=
  if (match acc.2 with
      | none => true
      | some bd => decide (cost i < bd)) then (i, some (cost i)) else acc

/-- The argmin loop of _select_best_inversion over range n, starting from
best_inversion = 0 and best_total_distance = infinity. -/
def invLoop (cost : ℕ → ℕ) (n : ℕ) : ℕ :=
  ((List.range n).foldl (invStep cost) (0, none)).1

/-- ProgressionTrainer._select_best_inversion: the inversion of the chord
(among 0 .. number-of-chord-tones - 1) minimizing the greedy
voice-assignment distance from previous_notes, earliest index winning
ties. -/
def select_best_inversion (chord : ChordNumber) (previous_notes : List ℤ) : ℕ :=
  invLoop
    (fun inversion =>
      calculate_optimal_voice_distance previous_notes
        (get_chord_notes chord (inversion : ℤ)))
    (get_chord_notes chord 0).length

/-- Invariant of the _select_best_inversion fold: after processing
range n (n positive), the accumulator holds the cost of the best index,
the best index is below n and cost-minimal, and every smaller index has
strictly larger cost. -/
lemma invLoop_spec (cost : ℕ → ℕ) : ∀ n : ℕ, 0 < n →
    ((List.range n).foldl (invStep cost) (0, none)).2 =
        some (cost ((List.range n).foldl (invStep cost) (0, none)).1)
    ∧ ((List.range n).foldl (invStep cost) (0, none)).1 < n
    ∧ (∀ i, i < n →
        cost ((List.range n).foldl (invStep cost) (0, none)).1 ≤ cost i)
    ∧ (∀ j, j < ((List.range n).foldl (invStep cost) (0, none)).1 →
        cost ((List.range n).foldl (invStep cost) (0, none)).1 < cost j) := by
  intro n
  induction n with
  | zero => omega
  | succ m ih =>
    intro _
    rw [List.range_succ, List.foldl_append, List.foldl_cons, List.foldl_nil]
    rcases Nat.eq_zero_or_pos m with hm | hm
    · subst hm
      simp only [List.range_zero, List.foldl_nil]
      have hstep : invStep cost (0, (none : Option ℕ)) 0 = (0, some (cost 0)) := by
        unfold invStep
        simp
      rw [hstep]
      refine ⟨rfl, Nat.lt_succ_self 0, ?_, ?_⟩
      · intro i hi
        interval_cases i
        exact le_refl _
      · intro j hj
        have hj2 : j < 0 := hj
        omega
    · obtain ⟨hsome, hlt, hmin, htie⟩ := ih hm
      set acc := (List.range m).foldl (invStep cost) (0, (none : Option ℕ)) with hacc
      by_cases hc : cost m < cost acc.1
      · have hstep : invStep cost acc m = (m, some (cost m)) := by
          unfold invStep
          rw [hsome]
          simp [hc]
        rw [hstep]
        refine ⟨rfl, Nat.lt_succ_self m, ?_, ?_⟩
        · intro i hi
          show cost m ≤ cost i
          rcases Nat.lt_succ_iff_lt_or_eq.mp hi with hi2 | hi2
          · exact le_of_lt (lt_of_lt_of_le hc (hmin i hi2))
          · subst hi2
            exact le_refl _
        · intro j hj
          have hj2 : j < m := hj
          show cost m < cost j
          exact lt_of_lt_of_le hc (hmin j hj2)
      · have hstep : invStep cost acc m = acc := by
          unfold invStep
          rw [hsome]
          simp [hc]
        rw [hstep]
        refine ⟨hsome, Nat.lt_succ_of_lt hlt, ?_, htie⟩
        intro i hi
        rcases Nat.lt_succ_iff_lt_or_eq.mp hi with hi2 | hi2
        · exact hmin i hi2
        · subst hi2
          exact not_lt.mp hc

/-- C5: _select_best_inversion returns the inversion index i in
0 .. n-1 (n = number of chord tones) whose greedy voice-assignment
distance from the previous voicing is minimal, and among equal-cost
inversions the lowest index is returned (strict < comparison). -/
theorem c5_select_best_inversion_argmin (chord : ChordNumber)
    (previous_notes : List ℤ) :
    select_best_inversion chord previous_notes < (get_chord_notes chord 0).length
    ∧ (∀ i, i < (get_chord_notes chord 0).length →
        calculate_optimal_voice_distance previous_notes
            (get_chord_notes chord ((select_best_inversion chord previous_notes : ℕ) : ℤ))
          ≤ calculate_optimal_voice_distance previous_notes
              (get_chord_notes chord ((i : ℕ) : ℤ)))
    ∧ (∀ j, j < select_best_inversion chord previous_notes →
        calculate_optimal_voice_distance previous_notes
            (get_chord_notes chord ((select_best_inversion chord previous_notes : ℕ) : ℤ))
          < calculate_optimal_voice_distance previous_notes
              (get_chord_notes chord ((j : ℕ) : ℤ))) := by
  have hn : 0 < (get_chord_notes chord 0).length := by
    cases chord <;> decide
  obtain ⟨-, h1, h2, h3⟩ :=
    invLoop_spec
      (fun inversion =>
        calculate_optimal_voice_distance previous_notes
          (get_chord_notes chord (inversion : ℤ)))
      (get_chord_notes chord 0).length hn
  exact ⟨h1, h2, h3⟩

/-- C5 witness: a concrete instantiation, V chord against previous
voicing [0, 4, 7]. -/
theorem c5_witness :
    select_best_inversion ChordNumber.V [0, 4, 7] <
      (get_chord_notes ChordNumber.V 0).length :=
  (c5_select_best_inversion_argmin ChordNumber.V [0, 4, 7]).1

/-- C2 counterexample: with previous voicing [0,4,7] and next chord V
(G major), all three inversions have the same total greedy assignment
distance 3, so the selected inversion (index 0) is not strictly better
than the other two. -/
theorem c2_counterexample :
    select_best_inversion ChordNumber.V [0, 4, 7] = 0
    ∧ calculate_optimal_voice_distance [0, 4, 7] (get_chord_notes ChordNumber.V 0) = 3
    ∧ calculate_optimal_voice_distance [0, 4, 7] (get_chord_notes ChordNumber.V 1) = 3
    ∧ calculate_optimal_voice_distance [0, 4, 7] (get_chord_notes ChordNumber.V 2) = 3 := by
  decide

/-- C2 (amended): with previous voicing [0,4,7] and next chord G major,
the selected inversion attains the minimum total greedy distance (a
three-way tie at 3) and is the least-index brute-force argmin; the strict
inequality of the original claim does not hold. -/
theorem c2_voice_leading_tie :
    select_best_inversion ChordNumber.V [0, 4, 7] = 0
    ∧ (∀ i : ℕ, i < 3 →
        calculate_optimal_voice_distance [0, 4, 7]
            (get_chord_notes ChordNumber.V ((select_best_inversion ChordNumber.V [0, 4, 7] : ℕ) : ℤ))
          ≤ calculate_optimal_voice_distance [0, 4, 7] (get_chord_notes ChordNumber.V ((i : ℕ) : ℤ))) := by
  refine ⟨by decide, ?_⟩
  intro i hi
  have h3 : i = 0 ∨ i = 1 ∨ i = 2 := by omega
  rcases h3 with h | h | h <;> subst h <;> decide

/-- C2 witness: the amended minimality instantiated at inversion 1. -/
theorem c2_witness :
    calculate_optimal_voice_distance [0, 4, 7]
        (get_chord_notes ChordNumber.V
          ((select_best_inversion ChordNumber.V [0, 4, 7] : ℕ) : ℤ))
      ≤ calculate_optimal_voice_distance [0, 4, 7]
          (get_chord_notes ChordNumber.V (((1 : ℕ) : ℕ) : ℤ)) :=
  c2_voice_leading_tie.2 1 (by norm_num)

/-! ## C10: each candidate is claimed at most once, surplus voices
contribute nothing -/

/-- The octave-offset fold either keeps its accumulator or yields a pair
indexed by the candidate being examined. -/
lemma octaveFold_fst (prev_note : ℤ) (next_idx : ℕ) (next_note : ℤ) :
    ∀ (offs : List ℤ) (b : Option (ℕ × ℕ)),
      List.foldl (octaveStep prev_note next_idx next_note) b offs = b
      ∨ ∃ d, List.foldl (octaveStep prev_note next_idx next_note) b offs =
          some (next_idx, d) := by
  intro offs
  induction offs with
  | nil => intro b; exact Or.inl rfl
  | cons o os ih =>
    intro b
    rw [List.foldl_cons]
    rcases ih (octaveStep prev_note next_idx next_note b o) with h | h
    · rw [h]
      dsimp only [octaveStep]
      split_ifs
      · exact Or.inr ⟨_, rfl⟩
      · exact Or.inl rfl
    · exact Or.inr h

/-- The octave-offset fold preserves having found a candidate. -/
lemma octaveFold_isSome (prev_note : ℤ) (next_idx : ℕ) (next_note : ℤ) :
    ∀ (offs : List ℤ) (b : Option (ℕ × ℕ)), b.isSome = true →
      (List.foldl (octaveStep prev_note next_idx next_note) b offs).isSome = true := by
  intro offs
  induction offs with
  | nil => intro b hb; exact hb
  | cons o os ih =>
    intro b hb
    rw [List.foldl_cons]
    apply ih
    dsimp only [octaveStep]
    split_ifs
    · rfl
    · exact hb

/-- An unclaimed candidate always yields a best pair: the first octave
trial beats the initial infinity. -/
lemma updateBest_isSome (prev_note : ℤ) (next_idx : ℕ) (next_note : ℤ)
    (b : Option (ℕ × ℕ)) : (updateBest prev_note next_idx next_note b).isSome = true := by
  cases b with
  | some q => exact octaveFold_isSome prev_note next_idx next_note octaveOffsets _ rfl
  | none =>
    unfold updateBest octaveOffsets
    rw [List.foldl_cons]
    apply octaveFold_isSome
    simp [octaveStep, betterDistance]

/-- The best pair after examining one candidate is either the incoming
best or indexed by that candidate. -/
lemma updateBest_fst (prev_note : ℤ) (next_idx : ℕ) (next_note : ℤ)
    (b : Option (ℕ × ℕ)) :
    ∀ q, updateBest prev_note next_idx next_note b = some q →
      b = some q ∨ q.1 = next_idx := by
  intro q hq
  unfold updateBest at hq
  rcases octaveFold_fst prev_note next_idx next_note octaveOffsets b with h | ⟨d, h⟩
  · rw [h] at hq
    exact Or.inl hq
  · rw [h] at hq
    obtain rfl : (next_idx, d) = q := Option.some.inj hq
    exact Or.inr rfl

/-- Scanning enumerated candidates from index k only ever selects an
unclaimed index below k plus the number of candidates scanned. -/
lemma scanFold_valid (prev_note : ℤ) (assigned : Finset ℕ) :
    ∀ (l : List ℤ) (k : ℕ) (b : Option (ℕ × ℕ)),
      (∀ q, b = some q → q.1 ∉ assigned ∧ q.1 < k) →
      ∀ q, List.foldl (scanStep prev_note assigned) b (l.enumFrom k) = some q →
        q.1 ∉ assigned ∧ q.1 < k + l.length := by
  intro l
  induction l with
  | nil =>
    intro k b hb q hq
    simp only [List.enumFrom_nil, List.foldl_nil] at hq
    obtain ⟨h1, h2⟩ := hb q hq
    exact ⟨h1, by simpa using by omega⟩
  | cons x xs ih =>
    intro k b hb q hq
    rw [List.enumFrom_cons, List.foldl_cons] at hq
    have hb2 : ∀ q2, scanStep prev_note assigned b (k, x) = some q2 →
        q2.1 ∉ assigned ∧ q2.1 < k + 1 := by
      intro q2 hq2
      by_cases hk : k ∈ assigned
      · simp only [scanStep, hk, if_true] at hq2
        obtain ⟨h1, h2⟩ := hb q2 hq2
        exact ⟨h1, by omega⟩
      · simp only [scanStep, hk, if_false] at hq2
        rcases updateBest_fst prev_note k x b q2 hq2 with h | h
        · obtain ⟨h1, h2⟩ := hb q2 h
          exact ⟨h1, by omega⟩
        · exact ⟨by rw [h]; exact hk, by omega⟩
    obtain ⟨h1, h2⟩ := ih (k + 1) _ hb2 q hq
    refine ⟨h1, ?_⟩
    simp only [List.length_cons]
    omega

/-- C10 half (a): a candidate selected by the inner search was not yet
claimed, and its index is a real position of the next chord. -/
lemma findBestCandidate_valid (prev_note : ℤ) (next_notes : List ℤ)
    (assigned : Finset ℕ) :
    ∀ q, findBestCandidate prev_note next_notes assigned = some q →
      q.1 ∉ assigned ∧ q.1 < next_notes.length := by
  intro q hq
  unfold findBestCandidate at hq
  have he : next_notes.enum = next_notes.enumFrom 0 := rfl
  rw [he] at hq
  obtain ⟨h1, h2⟩ :=
    scanFold_valid prev_note assigned next_notes 0 none (fun q h => nomatch h) q hq
  exact ⟨h1, by omega⟩

/-- While an unclaimed candidate exists, the scan finds one. -/
lemma scanFold_isSome (prev_note : ℤ) (assigned : Finset ℕ) :
    ∀ (l : List ℤ) (k : ℕ) (b : Option (ℕ × ℕ)),
      ((∃ j, j < l.length ∧ (k + j) ∉ assigned) ∨ b.isSome = true) →
      (List.foldl (scanStep prev_note assigned) b (l.enumFrom k)).isSome = true := by
  intro l
  induction l with
  | nil =>
    intro k b h
    rcases h with ⟨j, hj, _⟩ | h
    · simp at hj
    · simpa using h
  | cons x xs ih =>
    intro k b h
    rw [List.enumFrom_cons, List.foldl_cons]
    rcases h with ⟨j, hj, hja⟩ | h
    · rcases Nat.eq_zero_or_pos j with hj0 | hj0
      · subst hj0
        apply ih (k + 1)
        right
        have hk : k ∉ assigned := by simpa using hja
        simp only [scanStep, hk, if_false]
        exact updateBest_isSome prev_note k x b
      · apply ih (k + 1)
        left
        refine ⟨j - 1, by simp only [List.length_cons] at hj; omega, ?_⟩
        have hkj : k + 1 + (j - 1) = k + j := by omega
        rw [hkj]
        exact hja
    · apply ih (k + 1)
      right
      unfold scanStep
      split_ifs
      · exact h
      · exact updateBest_isSome prev_note k x b

/-- If some position of the next chord is unclaimed, the candidate search
succeeds. -/
lemma findBestCandidate_isSome (prev_note : ℤ) (next_notes : List ℤ)
    (assigned : Finset ℕ) (h : ∃ i, i < next_notes.length ∧ i ∉ assigned) :
    (findBestCandidate prev_note next_notes assigned).isSome = true := by
  unfold findBestCandidate
  have he : next_notes.enum = next_notes.enumFrom 0 := rfl
  rw [he]
  apply scanFold_isSome
  left
  obtain ⟨i, h1, h2⟩ := h
  exact ⟨i, h1, by simpa using h2⟩

/-- A scan over fully claimed candidates leaves the accumulator alone. -/
lemma scanFold_skip (prev_note : ℤ) (assigned : Finset ℕ) :
    ∀ (l : List ℤ) (k : ℕ) (b : Option (ℕ × ℕ)),
      (∀ j, j < l.length → (k + j) ∈ assigned) →
      List.foldl (scanStep prev_note assigned) b (l.enumFrom k) = b := by
  intro l
  induction l with
  | nil => intro k b _; rfl
  | cons x xs ih =>
    intro k b hall
    rw [List.enumFrom_cons, List.foldl_cons]
    have hk : k ∈ assigned := by
      have := hall 0 (by simp)
      simpa using this
    have hstep : scanStep prev_note assigned b (k, x) = b := by
      simp only [scanStep, hk, if_true]
    rw [hstep]
    apply ih (k + 1)
    intro j hj
    have hkj : k + 1 + j = k + (j + 1) := by omega
    rw [hkj]
    exact hall (j + 1) (by simp only [List.length_cons]; omega)

/-- If every position of the next chord is claimed, the candidate search
finds nothing. -/
lemma findBestCandidate_none (prev_note : ℤ) (next_notes : List ℤ)
    (assigned : Finset ℕ) (h : ∀ i, i < next_notes.length → i ∈ assigned) :
    findBestCandidate prev_note next_notes assigned = none := by
  unfold findBestCandidate
  have he : next_notes.enum = next_notes.enumFrom 0 := rfl
  rw [he]
  apply scanFold_skip
  intro j hj
  exact h (0 + j) (by omega)

/-- The voice-distance fold only ever uses as many previous notes as
there are unclaimed candidate positions left. -/
lemma voiceDistanceGo_take (next_notes : List ℤ) :
    ∀ (prev : List ℤ) (assigned : Finset ℕ),
      voiceDistanceGo next_notes prev assigned =
        voiceDistanceGo next_notes
          (prev.take ((Finset.range next_notes.length \ assigned).card)) assigned := by
  intro prev
  induction prev with
  | nil => intro assigned; rw [List.take_nil]
  | cons p rest ih =>
    intro assigned
    rcases Nat.eq_zero_or_pos ((Finset.range next_notes.length \ assigned).card)
      with hd | hd
    · have hsub : Finset.range next_notes.length ⊆ assigned :=
        Finset.sdiff_eq_empty_iff_subset.mp (Finset.card_eq_zero.mp hd)
      have hall : ∀ i, i < next_notes.length → i ∈ assigned := fun i hi =>
        hsub (Finset.mem_range.mpr hi)
      have hnone := findBestCandidate_none p next_notes assigned hall
      rw [hd, List.take_zero]
      simp only [voiceDistanceGo, hnone]
      rw [ih assigned, hd, List.take_zero]
      rfl
    · have hex : ∃ i, i < next_notes.length ∧ i ∉ assigned := by
        obtain ⟨x, hx⟩ := Finset.card_pos.mp hd
        obtain ⟨hx1, hx2⟩ := Finset.mem_sdiff.mp hx
        exact ⟨x, Finset.mem_range.mp hx1, hx2⟩
      obtain ⟨q, hq⟩ :=
        Option.isSome_iff_exists.mp (findBestCandidate_isSome p next_notes assigned hex)
      obtain ⟨hq1, hq2⟩ := findBestCandidate_valid p next_notes assigned q hq
      have hcard : (Finset.range next_notes.length \ insert q.1 assigned).card
          = (Finset.range next_notes.length \ assigned).card - 1 := by
        rw [Finset.sdiff_insert]
        exact Finset.card_erase_of_mem
          (Finset.mem_sdiff.mpr ⟨Finset.mem_range.mpr hq2, hq1⟩)
      obtain ⟨m, hm⟩ : ∃ m, (Finset.range next_notes.length \ assigned).card = m + 1 :=
        ⟨(Finset.range next_notes.length \ assigned).card - 1, by omega⟩
      rw [hm, List.take_succ_cons]
      simp only [voiceDistanceGo, hq]
      rw [ih (insert q.1 assigned), hcard, hm, Nat.add_sub_cancel]

/-- C10: in the greedy voice assignment every candidate position of the
next chord is claimed by at most one previous note (a selected candidate
is always unclaimed and in range), and consequently previous notes beyond
the length of the next chord find nothing and contribute zero: the total
only depends on the first (length of next chord) previous notes. -/
theorem c10_assignment_injective_and_surplus :
    (∀ (prev_note : ℤ) (next_notes : List ℤ) (assigned : Finset ℕ) (q : ℕ × ℕ),
        findBestCandidate prev_note next_notes assigned = some q →
        q.1 ∉ assigned ∧ q.1 < next_notes.length)
    ∧ (∀ previous_notes next_notes : List ℤ,
        calculate_optimal_voice_distance previous_notes next_notes =
          calculate_optimal_voice_distance (previous_notes.take next_notes.length)
            next_notes) := by
  constructor
  · intro prev_note next_notes assigned q hq
    exact findBestCandidate_valid prev_note next_notes assigned q hq
  · intro previous_notes next_notes
    unfold calculate_optimal_voice_distance
    have h := voiceDistanceGo_take next_notes previous_notes ∅
    simpa using h

/-- C10 witness: for previous note 0 against next chord [7, 11, 14] with
nothing claimed, the search selects index 1 at distance 1, which is
unclaimed and in range; and a four-note voicing moving to a triad uses
only its first three notes. -/
theorem c10_witness :
    ((1 : ℕ) ∉ (∅ : Finset ℕ) ∧ (1 : ℕ) < ([7, 11, 14] : List ℤ).length)
    ∧ calculate_optimal_voice_distance [0, 4, 7, 10] [7, 11, 14] =
        calculate_optimal_voice_distance ([0, 4, 7, 10].take 3) [7, 11, 14] :=
  ⟨c10_assignment_injective_and_surplus.1 0 [7, 11, 14] ∅ (1, 1) (by decide),
    c10_assignment_injective_and_surplus.2 [0, 4, 7, 10] [7, 11, 14]⟩

/-! ## First-chord inversion selection
(_select_best_inversion_for_next, claim C6) -/

/-- Arithmetic mean of a voicing, as an exact rational. -/
def chordMean (notes : List ℤ) : ℚ := (notes.sum : ℚ) / (notes.length : ℚ)

/-- The for/else scan of _select_best_inversion_for_next over the sorted
(inversion, distance) list: first inversion differing from the avoided
one, or the head of the list if the loop never breaks. -/
def pickAvoiding (l : List (ℕ × ℚ)) (avoid : Option ℕ) : ℕ :=
  match l.find? (fun p => decide (some p.1 ≠ avoid)) with
  | some p => p.1
  | none => (l.headD (0, 0)).1

/-- ProgressionTrainer._select_best_inversion_for_next: rank the chord's
inversions by distance of voicing mean to the next chord's root-position
mean (ascending, stable sort), pick the first differing from
last_tonic_inversion, and store the pick.  Returns the pair
(best_inversion, new last_tonic_inversion). -/
def select_best_inversion_for_next (chord next_chord : ChordNumber)
    (last_tonic_inversion : Option ℕ) : ℕ × Option ℕ :=
  let next_avg := chordMean (get_chord_notes next_chord 0)
  let num_inversions := (get_chord_notes chord 0).length
  let inversions_with_distance :=
    (List.range num_inversions).map
      (fun inversion : ℕ =>
        (inversion, |chordMean (get_chord_notes chord (inversion : ℤ)) - next_avg|))
  let sorted := inversions_with_distance.mergeSort (fun a b => decide (a.2 ≤ b.2))
  let best_inversion := pickAvoiding sorted last_tonic_inversion
  (best_inversion, some best_inversion)

/-- On a list sorted by distance, pickAvoiding returns a member that
differs from the avoided value and whose distance is minimal among all
members differing from it. -/
lemma pickAvoiding_mem_and_min (l : List (ℕ × ℚ)) (avoid : Option ℕ)
    (hsorted : l.Pairwise (fun a b => a.2 ≤ b.2))
    (hex : ∃ p ∈ l, some p.1 ≠ avoid) :
    ∃ p ∈ l, pickAvoiding l avoid = p.1 ∧ some p.1 ≠ avoid
      ∧ ∀ q ∈ l, some q.1 ≠ avoid → p.2 ≤ q.2 := by
  have hfind : (l.find? (fun p => decide (some p.1 ≠ avoid))).isSome = true := by
    rw [List.find?_isSome]
    obtain ⟨p, hp, hne⟩ := hex
    exact ⟨p, hp, decide_eq_true hne⟩
  obtain ⟨p0, hp0⟩ := Option.isSome_iff_exists.mp hfind
  have hp0c := hp0
  rw [List.find?_eq_some] at hp0c
  obtain ⟨hpred, as, bs, hsplit, hprev⟩ := hp0c
  refine ⟨p0, ?_, ?_, of_decide_eq_true hpred, ?_⟩
  · rw [hsplit]
    exact List.mem_append_right _ (List.mem_cons_self _ _)
  · unfold pickAvoiding
    rw [hp0]
  · intro q hq hqne
    rw [hsplit] at hq hsorted
    rcases List.mem_append.mp hq with hq1 | hq2
    · have hfalse : decide (some q.1 ≠ avoid) = false := by
        simpa using hprev q hq1
      exact absurd hqne (of_decide_eq_false hfalse)
    · rcases List.mem_cons.mp hq2 with rfl | hq3
      · exact le_refl _
      · have hpair := (List.pairwise_append.mp hsorted).2.1
        exact (List.pairwise_cons.mp hpair).1 q hq3

/-- Specification of the first-chord selection on any sorted permutation
of the (inversion, distance) table: the pick is a valid inversion index,
differs from the avoided value, and is distance-minimal among inversions
differing from it. -/
lemma pick_spec_of_perm (dist : ℕ → ℚ) (n : ℕ) (hn : 2 ≤ n) (avoid : Option ℕ)
    (S : List (ℕ × ℚ))
    (hperm : S.Perm ((List.range n).map (fun i => (i, dist i))))
    (hsorted : S.Pairwise (fun a b => a.2 ≤ b.2)) :
    pickAvoiding S avoid < n ∧ some (pickAvoiding S avoid) ≠ avoid
    ∧ ∀ i, i < n → some i ≠ avoid → dist (pickAvoiding S avoid) ≤ dist i := by
  have hmemL : ∀ i, i < n → (i, dist i) ∈ S := by
    intro i hi
    rw [hperm.mem_iff]
    exact List.mem_map.mpr ⟨i, List.mem_range.mpr hi, rfl⟩
  have hex : ∃ p ∈ S, some p.1 ≠ avoid := by
    by_cases h0 : avoid = some 0
    · exact ⟨(1, dist 1), hmemL 1 (by omega), by simp [h0]⟩
    · exact ⟨(0, dist 0), hmemL 0 (by omega), fun h => h0 h.symm⟩
  obtain ⟨p, hpS, hpick, hpne, hmin⟩ := pickAvoiding_mem_and_min S avoid hsorted hex
  obtain ⟨i, hiR, hieq⟩ := List.mem_map.mp (hperm.mem_iff.mp hpS)
  have hin : i < n := List.mem_range.mp hiR
  subst hieq
  rw [hpick]
  refine ⟨hin, hpne, ?_⟩
  intro j hj hjne
  have h := hmin (j, dist j) (hmemL j hj) (by simpa using hjne)
  simpa using h

/-- C6: _select_best_inversion_for_next returns the inversion (a valid
index below the number of chord tones) with minimal mean-distance to the
next chord's root-position voicing among inversions differing from the
stored last_tonic_inversion, never returns the avoided inversion, and
stores the returned inversion as the new last_tonic_inversion. -/
theorem c6_first_chord_inversion (chord next_chord : ChordNumber)
    (avoid : Option ℕ) :
    (select_best_inversion_for_next chord next_chord avoid).1 <
        (get_chord_notes chord 0).length
    ∧ some (select_best_inversion_for_next chord next_chord avoid).1 ≠ avoid
    ∧ (∀ i : ℕ, i < (get_chord_notes chord 0).length → some i ≠ avoid →
        |chordMean (get_chord_notes chord
              (((select_best_inversion_for_next chord next_chord avoid).1 : ℕ) : ℤ)) -
            chordMean (get_chord_notes next_chord 0)|
          ≤ |chordMean (get_chord_notes chord ((i : ℕ) : ℤ)) -
              chordMean (get_chord_notes next_chord 0)|)
    ∧ (select_best_inversion_for_next chord next_chord avoid).2 =
        some (select_best_inversion_for_next chord next_chord avoid).1 := by
  have hn : 2 ≤ (get_chord_notes chord 0).length := by
    cases chord <;> decide
  have htrans : ∀ a b c : ℕ × ℚ, decide (a.2 ≤ b.2) = true →
      decide (b.2 ≤ c.2) = true → decide (a.2 ≤ c.2) = true := by
    intro a b c h1 h2
    exact decide_eq_true (le_trans (of_decide_eq_true h1) (of_decide_eq_true h2))
  have htotal : ∀ a b : ℕ × ℚ,
      (decide (a.2 ≤ b.2) || decide (b.2 ≤ a.2)) = true := by
    intro a b
    rcases le_total a.2 b.2 with h | h <;> simp [h]
  have key := pick_spec_of_perm
    (fun inversion =>
      |chordMean (get_chord_notes chord (inversion : ℤ)) -
        chordMean (get_chord_notes next_chord 0)|)
    (get_chord_notes chord 0).length hn avoid
    (((List.range (get_chord_notes chord 0).length).map
        (fun inversion : ℕ =>
          (inversion,
            |chordMean (get_chord_notes chord (inversion : ℤ)) -
              chordMean (get_chord_notes next_chord 0)|))).mergeSort
      (fun a b => decide (a.2 ≤ b.2)))
    (List.mergeSort_perm _ _)
    ((List.sorted_mergeSort htrans htotal _).imp (fun h => of_decide_eq_true h))
  exact ⟨key.1, key.2.1, key.2.2, rfl⟩

/-- C6 witness: a concrete instantiation with chord I against next chord
IV and nothing to avoid. -/
theorem c6_witness :
    (select_best_inversion_for_next ChordNumber.I ChordNumber.IV none).1 <
      (get_chord_notes ChordNumber.I 0).length :=
  (c6_first_chord_inversion ChordNumber.I ChordNumber.IV none).1

/-! ## Progression generation (generate_progression, claim C7) -/

/-- A progression is an ordered chord sequence. -/
abbrev Progression := List ChordNumber

/-- The curated library self.common_progressions, transcribed in source
order. -/
def common_progressions : List Progression :=
  [[.I, .IV],
   [.I, .II],
   [.I, .IV, .V],
   [.I, .V, .IV],
   [.I, .VI, .IV, .V],
   [.I, .IV, .I, .V],
   [.I, .IV, .V, .I],
   [.VI, .IV, .I, .V],
   [.I, .V, .VI, .IV],
   [.I, .III, .VI, .IV, .V],
   [.I, .IIIAUG, .VI, .IV, .V],
   [.I, .II, .V],
   [.I, .V, .I],
   [.IMAJ7, .VI, .IIM7, .V7],
   [.IMAJ7, .IV, .V7],
   [.I, .VIM7, .IIM7, .V7],
   [.IMAJ7, .IVMAJ7, .V7, .IMAJ7],
   [.I, .VI, .IIM7, .V7],
   [.IMAJ7, .VI, .IV, .V7],
   [.VI, .IV, .V, .VI],
   [.VI, .VII, .VI],
   [.VI, .III, .VII, .VI],
   [.VI, .IV, .VII],
   [.VI, .I, .V],
   [.VI, .II, .V],
   [.VI, .IV, .I],
   [.VI, .IV, .V, .VII],
   [.VI, .II, .VII, .VI],
   [.VIM7, .IV, .V7, .VIM7],
   [.VI, .IIM7, .V7, .VI],
   [.VIM7, .IIM7, .V7],
   [.VI, .IVMAJ7, .V7, .VI],
   [.VIM7, .III, .V7, .VI]]

/-- list(ChordNumber): every chord symbol in enum definition order. -/
def chordList : List ChordNumber :=
  [.I, .IMAJ7, .II, .IIM7, .III, .IIIM7, .IIIAUG, .III7,
   .IV, .IVMAJ7, .V, .V7, .VI, .VIM7, .VII, .VIIM7B5]

/-- The voice_leading_preferences table of _choose_next_chord: plausible
successors per chord, in source order.  The dictionary covers every
chord, so the list(ChordNumber) fallback of the source is dead code. -/
def voice_leading_preferences : ChordNumber → List ChordNumber
  | .I => [.IV, .V, .V7, .VI, .II, .III, .IIIAUG, .III7, .VII, .IMAJ7,
           .IIM7, .IIIM7, .IVMAJ7, .VIM7, .VIIM7B5]
  | .IMAJ7 => [.IV, .IVMAJ7, .V, .V7, .VI, .VIM7, .II, .IIM7]
  | .II => [.V, .V7, .IV, .VII, .VIIM7B5]
  | .IIM7 => [.V, .V7, .IV, .IVMAJ7, .VII, .VIIM7B5]
  | .III => [.VI, .IIIAUG, .III7, .IV, .I, .VIM7]
  | .IIIM7 => [.VI, .VIM7, .IV, .IVMAJ7, .I]
  | .IIIAUG => [.VI, .III, .III7, .IV, .I]
  | .III7 => [.VI, .IV, .I]
  | .IV => [.I, .V, .V7, .II, .IMAJ7, .VII]
  | .IVMAJ7 => [.I, .IMAJ7, .V, .V7, .II, .IIM7]
  | .V => [.I, .VI, .IV, .VII, .IMAJ7, .VIM7]
  | .V7 => [.I, .IMAJ7, .VI, .VIM7, .IV, .VII]
  | .VI => [.IV, .IVMAJ7, .I, .IMAJ7, .II, .IIM7, .III, .IIIM7, .IIIAUG,
            .III7, .VII, .V, .VIM7]
  | .VIM7 => [.IV, .IVMAJ7, .I, .IMAJ7, .II, .IIM7, .III, .IIIM7]
  | .VII => [.I, .IMAJ7, .VI, .VIM7]
  | .VIIM7B5 => [.I, .IMAJ7, .VI, .VIM7]

/-- The mutable session state of a ProgressionTrainer instance. -/
structure TrainerState where
  base_freq : ℝ
  current_progression : Option Progression
  user_answer : Option Progression
  last_progression : Option Progression
  last_tonic_inversion : Option ℕ

/-- A freshly constructed ProgressionTrainer (default base_freq 440). -/
noncomputable def initial_trainer : TrainerState :=
  { base_freq := 440
    current_progression := none
    user_answer := none
    last_progression := none
    last_tonic_inversion := none }

/-- The curated rejection-sampling loop of generate_progression: draw from
the library until the draw differs from last_progression; none models
exhausting the supplied randomness (nontermination of the while loop). -/
def curated_loop (last : Option Progression) : List ℕ → Option Progression
  | [] => none
  | draw :: draws =>
    let progression := common_progressions.getD (draw % common_progressions.length) []
    if some progression = last then curated_loop last draws
    else some progression

/-- generate_progression with use_common_only=True: pick a curated
progression differing from the last one and store it as both
last_progression and current_progression. -/
noncomputable def generate_progression_curated (s : TrainerState) (draws : List ℕ) :
    Option (Progression × TrainerState) :=
  match curated_loop s.last_progression draws with
  | none => none
  | some p =>
    some (p, { s with last_progression := some p, current_progression := some p })

/-- ProgressionTrainer._choose_next_chord: uniform draw from the
preference list of the current chord. -/
def choose_next_chord (current_chord : ChordNumber) (draw : ℕ) : ChordNumber :=
  let preferred := voice_leading_preferences current_chord
  preferred.getD (draw % preferred.length) ChordNumber.I

/-- The inner while loop of constrained-walk generation: append
preference-table successors of the running last chord until the requested
length is reached.  Returns the progression and the next unread stream
position. -/
def extend_progression (stream : ℕ → ℕ) : ℕ → ℕ → Progression → Progression × ℕ
  | 0, idx, acc => (acc, idx)
  | steps + 1, idx, acc =>
    extend_progression stream steps (idx + 1)
      (acc ++ [choose_next_chord (acc.getLastD ChordNumber.I) (stream idx)])

/-- One candidate progression of constrained-walk mode: the seed chord
(tonic, or a uniformly random chord) extended to num_chords chords. -/
def build_progression (stream : ℕ → ℕ) (idx : ℕ) (start_on_tonic : Bool)
    (num_chords : ℕ) : Progression × ℕ :=
  let (start, idx1) :=
    if start_on_tonic then (([ChordNumber.I] : Progression), idx)
    else ([chordList.getD (stream idx % chordList.length) ChordNumber.I], idx + 1)
  extend_progression stream (num_chords - start.length) idx1 start

/-- The outer while-True loop of constrained-walk generation: rebuild the
whole candidate until it differs from last_progression; none models
running out of fuel (nontermination). -/
def walk_loop (stream : ℕ → ℕ) (start_on_tonic : Bool) (num_chords : ℕ)
    (last : Option Progression) : ℕ → ℕ → Option Progression
  | 0, _ => none
  | fuel + 1, idx =>
    let built := build_progression stream idx start_on_tonic num_chords
    if some built.1 = last then
      walk_loop stream start_on_tonic num_chords last fuel built.2
    else some built.1

/-- generate_progression with use_common_only=False: resolve the chord
count (random in [2,5] when not given), run the constrained walk until it
yields something different from last_progression, and store the result. -/
noncomputable def generate_progression_walk (s : TrainerState) (stream : ℕ → ℕ)
    (num_chords : Option ℕ) (start_on_tonic : Bool) (fuel : ℕ) :
    Option (Progression × TrainerState) :=
  let resolved :=
    match num_chords with
    | some n => (n, 0)
    | none => (2 + stream 0 % 4, 1)
  match walk_loop stream start_on_tonic resolved.1 s.last_progression fuel resolved.2 with
  | none => none
  | some p =>
    some (p, { s with last_progression := some p, current_progression := some p })

/-- Whatever the curated loop returns differs from last_progression. -/
lemma curated_loop_ne (last : Option Progression) :
    ∀ (draws : List ℕ) (p : Progression),
      curated_loop last draws = some p → some p ≠ last := by
  intro draws
  induction draws with
  | nil => intro p h; exact absurd h (by simp [curated_loop])
  | cons d ds ih =>
    intro p h
    by_cases hc :
        some (common_progressions.getD (d % common_progressions.length) []) = last
    · simp only [curated_loop, hc, if_true] at h
      exact ih p h
    · simp only [curated_loop, hc, if_false, Option.some.injEq] at h
      rw [← h]
      exact hc

/-- Whatever the walk loop returns differs from last_progression. -/
lemma walk_loop_ne (stream : ℕ → ℕ) (start_on_tonic : Bool) (num_chords : ℕ)
    (last : Option Progression) :
    ∀ (fuel idx : ℕ) (p : Progression),
      walk_loop stream start_on_tonic num_chords last fuel idx = some p →
      some p ≠ last := by
  intro fuel
  induction fuel with
  | zero => intro idx p h; exact absurd h (by simp [walk_loop])
  | succ f ih =>
    intro idx p h
    by_cases hc : some (build_progression stream idx start_on_tonic num_chords).1 = last
    · simp only [walk_loop, hc, if_true] at h
      exact ih _ p h
    · simp only [walk_loop, hc, if_false, Option.some.injEq] at h
      rw [← h]
      exact hc

/-- C7: whenever generate_progression terminates (in curated mode or in
constrained-walk mode), the returned progression differs from the
last_progression stored at the start of the call, and is stored as the
new last_progression; hence two consecutive terminating curated-mode
calls never return the same progression. -/
theorem c7_non_repetition :
    (∀ (s : TrainerState) (draws : List ℕ) (p : Progression) (s2 : TrainerState),
        generate_progression_curated s draws = some (p, s2) →
        some p ≠ s.last_progression ∧ s2.last_progression = some p)
    ∧ (∀ (s : TrainerState) (stream : ℕ → ℕ) (num_chords : Option ℕ)
        (start_on_tonic : Bool) (fuel : ℕ) (p : Progression) (s2 : TrainerState),
        generate_progression_walk s stream num_chords start_on_tonic fuel =
          some (p, s2) →
        some p ≠ s.last_progression ∧ s2.last_progression = some p)
    ∧ (∀ (s : TrainerState) (d1 d2 : List ℕ) (p1 p2 : Progression)
        (s1 s2 : TrainerState),
        generate_progression_curated s d1 = some (p1, s1) →
        generate_progression_curated s1 d2 = some (p2, s2) → p2 ≠ p1) := by
  have hcur : ∀ (s : TrainerState) (draws : List ℕ) (p : Progression)
      (s2 : TrainerState), generate_progression_curated s draws = some (p, s2) →
      some p ≠ s.last_progression ∧ s2.last_progression = some p := by
    intro s draws p s2 h
    unfold generate_progression_curated at h
    rcases hloop : curated_loop s.last_progression draws with - | q
    · rw [hloop] at h
      exact absurd h (by simp)
    · rw [hloop] at h
      simp only [Option.some.injEq, Prod.mk.injEq] at h
      obtain ⟨rfl, rfl⟩ := h
      exact ⟨curated_loop_ne s.last_progression draws q hloop, rfl⟩
  refine ⟨hcur, ?_, ?_⟩
  · intro s stream num_chords start_on_tonic fuel p s2 h
    unfold generate_progression_walk at h
    dsimp only at h
    rcases hloop : walk_loop stream start_on_tonic
        (match num_chords with
          | some n => ((n, 0) : ℕ × ℕ)
          | none => (2 + stream 0 % 4, 1)).1
        s.last_progression fuel
        (match num_chords with
          | some n => ((n, 0) : ℕ × ℕ)
          | none => (2 + stream 0 % 4, 1)).2 with - | q
    · rw [hloop] at h
      exact absurd h (by simp)
    · rw [hloop] at h
      simp only [Option.some.injEq, Prod.mk.injEq] at h
      obtain ⟨rfl, rfl⟩ := h
      exact ⟨walk_loop_ne stream start_on_tonic _ s.last_progression fuel _ q hloop,
        rfl⟩
  · intro s d1 d2 p1 p2 s1 s2 h1 h2
    obtain ⟨-, hstore⟩ := hcur s d1 p1 s1 h1
    obtain ⟨hne, -⟩ := hcur s1 d2 p2 s2 h2
    intro heq
    apply hne
    rw [hstore, heq]

/-- C7 witness: from a fresh trainer, the first curated draw returns the
first library progression, which differs from the (empty) stored
last_progression. -/
theorem c7_witness :
    some ([ChordNumber.I, ChordNumber.IV] : Progression) ≠
      initial_trainer.last_progression :=
  (c7_non_repetition.1 initial_trainer [0] [ChordNumber.I, ChordNumber.IV]
    { initial_trainer with
        last_progression := some [ChordNumber.I, ChordNumber.IV]
        current_progression := some [ChordNumber.I, ChordNumber.IV] } rfl).1

/-! ## Frequency rendering and answer checking
(get_progression_frequencies, submit_answer; claims C3 and C8) -/

/-- The error raised by get_progression_frequencies before any
progression has been generated (a ValueError in the source, named
NoProgressionError by the specification). -/
inductive ProgressionError where
  | noProgression
  deriving DecidableEq, Repr

/-- The semitone-to-Hz conversion of get_progression_frequencies: octave
placement by floor division, pitch class by mod, then equal temperament
from A4. -/
noncomputable def note_frequency (base_freq : ℝ) (base_octave : ℤ)
    (note_semitone : ℤ) : ℝ :=
  let octave := base_octave + note_semitone / 12
  let note_in_octave := note_semitone % 12
  let semitones_from_a4 := (octave - 4) * 12 + note_in_octave - 9
  base_freq * (2 : ℝ) ^ ((semitones_from_a4 : ℝ) / 12)

/-- The per-chord body of the get_progression_frequencies loop: convert
the voiced notes, optionally prepending the un-inverted root an octave
below as a bass note. -/
noncomputable def chord_frequencies (base_freq : ℝ) (base_octave : ℤ)
    (include_bass_line : Bool) (chord : ChordNumber) (inversion : ℕ) : List ℝ :=
  let chord_notes := get_chord_notes chord (inversion : ℤ)
  let frequencies := chord_notes.map (note_frequency base_freq base_octave)
  if include_bass_line then
    note_frequency base_freq (base_octave - 1) ((get_chord_notes chord 0).headD 0)
      :: frequencies
  else frequencies

/-- The loop of get_progression_frequencies from the second chord on:
voice-leading inversion selection against the previous chord's unvoiced
semitones when enabled, else root position. -/
noncomputable def render_rest (base_freq : ℝ) (base_octave : ℤ)
    (use_inversions include_bass_line : Bool) :
    List ChordNumber → List ℤ → List (List ℝ)
  | [], _ => []
  | chord :: rest, previous_notes =>
    let inversion :=
      if use_inversions then select_best_inversion chord previous_notes else 0
    chord_frequencies base_freq base_octave include_bass_line chord inversion
      :: render_rest base_freq base_octave use_inversions include_bass_line rest
          (get_chord_notes chord (inversion : ℤ))

/-- ProgressionTrainer.get_progression_frequencies: fails when no
progression is stored; otherwise renders each chord, choosing the first
chord's inversion against the second chord (updating
last_tonic_inversion) and later inversions by voice leading. -/
noncomputable def get_progression_frequencies (s : TrainerState) (base_octave : ℤ)
    (use_inversions include_bass_line : Bool) :
    Except ProgressionError (List (List ℝ) × TrainerState) :=
  match s.current_progression with
  | none => Except.error ProgressionError.noProgression
  | some progression =>
    match progression with
    | [] => Except.ok ([], s)
    | [chord] =>
      Except.ok
        ([chord_frequencies s.base_freq base_octave include_bass_line chord 0], s)
    | chord :: next_chord :: rest =>
      let sel := select_best_inversion_for_next chord next_chord s.last_tonic_inversion
      Except.ok
        (chord_frequencies s.base_freq base_octave include_bass_line chord sel.1
            :: render_rest s.base_freq base_octave use_inversions include_bass_line
                (next_chord :: rest) (get_chord_notes chord (sel.1 : ℤ)),
          { s with last_tonic_inversion := sel.2 })

/-- ProgressionTrainer.submit_answer: store the guess and compare it with
the current progression; comparing with an unset (None) progression is
simply False, no error is raised. -/
noncomputable def submit_answer (s : TrainerState) (user_progression : Progression) :
    TrainerState × Bool :=
  ({ s with user_answer := some user_progression },
    decide (some user_progression = s.current_progression))

/-- C3 (amended): a frequency query before any progression exists fails
with the NoProgressionError-kind error and succeeds once a progression
exists; submit_answer never raises: it returns the comparison result,
which is False whenever no progression exists. -/
theorem c3_before_generation :
    (∀ (s : TrainerState) (base_octave : ℤ) (use_inversions include_bass_line : Bool),
        s.current_progression = none →
        get_progression_frequencies s base_octave use_inversions include_bass_line =
          Except.error ProgressionError.noProgression)
    ∧ (∀ (s : TrainerState) (base_octave : ℤ) (use_inversions include_bass_line : Bool)
        (p : Progression), s.current_progression = some p →
        ∃ v, get_progression_frequencies s base_octave use_inversions include_bass_line =
          Except.ok v)
    ∧ (∀ (s : TrainerState) (user_progression : Progression),
        (submit_answer s user_progression).2 =
          decide (some user_progression = s.current_progression)
        ∧ (s.current_progression = none →
            (submit_answer s user_progression).2 = false)) := by
  refine ⟨?_, ?_, ?_⟩
  · intro s bo ui ib h
    unfold get_progression_frequencies
    rw [h]
  · intro s bo ui ib p h
    unfold get_progression_frequencies
    rw [h]
    rcases p with - | ⟨c, - | ⟨c2, rest⟩⟩
    · exact ⟨_, rfl⟩
    · exact ⟨_, rfl⟩
    · exact ⟨_, rfl⟩
  · intro s u
    refine ⟨rfl, ?_⟩
    intro h
    simp [submit_answer, h]

/-- C3 counterexample: submit_answer on a fresh trainer (no progression
generated) does not fail; it returns the value False. -/
theorem c3_counterexample :
    (submit_answer initial_trainer [ChordNumber.I]).2 = false := rfl

/-- C3 witness: the frequency query on a fresh trainer errors. -/
theorem c3_witness :
    get_progression_frequencies initial_trainer 4 true false =
      Except.error ProgressionError.noProgression :=
  c3_before_generation.1 initial_trainer 4 true false rfl

/-- With the default base frequency and base octave 4, the conversion is
440 Hz times 2 to the (o - 9)/12, o the semitone offset. -/
lemma note_frequency_440_4 (o : ℤ) :
    note_frequency 440 4 o = 440 * (2 : ℝ) ^ (((o : ℝ) - 9) / 12) := by
  unfold note_frequency
  dsimp only
  rw [show (4 + o / 12 - 4) * 12 + o % 12 - 9 = o - 9 by omega]
  norm_num

/-- Bracketing 2 to a rational power num/den between rationals a and b by
comparing den-th powers. -/
lemma rpow_div_bounds (num den : ℕ) (hden : den ≠ 0) (a b : ℝ)
    (hb0 : 0 ≤ b) (hab : a ^ den < 2 ^ num) (hb : (2:ℝ) ^ num < b ^ den) :
    a < (2:ℝ) ^ ((num : ℝ) / (den : ℝ)) ∧ (2:ℝ) ^ ((num : ℝ) / (den : ℝ)) < b := by
  have hx0 : (0:ℝ) ≤ (2:ℝ) ^ ((num : ℝ) / (den : ℝ)) :=
    Real.rpow_nonneg (by norm_num) _
  have hpow : ((2:ℝ) ^ ((num : ℝ) / (den : ℝ))) ^ den = 2 ^ num := by
    rw [← Real.rpow_natCast ((2:ℝ) ^ ((num : ℝ) / (den : ℝ))) den,
      ← Real.rpow_mul (by norm_num : (0:ℝ) ≤ 2),
      div_mul_cancel₀ _ (Nat.cast_ne_zero.mpr hden)]
    exact Real.rpow_natCast 2 num
  constructor
  · exact lt_of_pow_lt_pow_left den hx0 (by rw [hpow]; exact hab)
  · exact lt_of_pow_lt_pow_left den hb0 (by rw [hpow]; exact hb)

/-- Error bound for y/x from rational bracketing of x. -/
lemma div_abs_bound (y x a b c eps : ℝ) (hy : 0 < y) (ha : 0 < a) (hax : a < x)
    (hxb : x < b) (h1 : (c - eps) * b < y) (h2 : y < (c + eps) * a) :
    |y / x - c| < eps := by
  have hx : 0 < x := ha.trans hax
  have hb : 0 < b := hx.trans hxb
  rw [abs_lt]
  constructor
  · have hlow : y / b < y / x := div_lt_div_of_pos_left hy hx hxb
    have hcb : c - eps < y / b := by
      rw [lt_div_iff hb]
      exact h1
    linarith
  · have hhigh : y / x < y / a := div_lt_div_of_pos_left hy ha hax
    have hca : y / a < c + eps := by
      rw [div_lt_iff ha]
      exact h2
    linarith

/-- The rendered frequency of semitone offset o at defaults, as an
explicit quotient. -/
lemma note_frequency_div (o : ℤ) (num : ℕ) (h : ((o : ℝ) - 9) / 12 = -((num : ℝ) / (12 : ℕ))) :
    note_frequency 440 4 o = 440 / (2 : ℝ) ^ ((num : ℝ) / ((12 : ℕ) : ℝ)) := by
  rw [note_frequency_440_4, h, Real.rpow_neg (by norm_num : (0:ℝ) ≤ 2)]
  exact (div_eq_mul_inv _ _).symm

/-- C8: on the tonic triad (progression [I]) with base octave 4 and
reference A4 = 440 Hz, get_progression_frequencies renders exactly the
converted offsets [0, 4, 7], and those frequencies are within 1e-6 of
261.625565 Hz, 329.627557 Hz and 391.995436 Hz (equal-tempered C4, E4,
G4). -/
theorem c8_frequency_conversion :
    get_progression_frequencies
        { initial_trainer with current_progression := some [ChordNumber.I] }
        4 true false
      = Except.ok
          ([[note_frequency 440 4 0, note_frequency 440 4 4, note_frequency 440 4 7]],
            { initial_trainer with current_progression := some [ChordNumber.I] })
    ∧ |note_frequency 440 4 0 - 261.625565| < 1 / 1000000
    ∧ |note_frequency 440 4 4 - 329.627557| < 1 / 1000000
    ∧ |note_frequency 440 4 7 - 391.995436| < 1 / 1000000 := by
  refine ⟨rfl, ?_, ?_, ?_⟩
  · rw [note_frequency_div 0 9 (by norm_num)]
    obtain ⟨ha, hb⟩ := rpow_div_bounds 9 12 (by norm_num)
      1.6817928305 1.6817928306 (by norm_num) (by norm_num) (by norm_num)
    exact div_abs_bound _ _ _ _ _ _ (by norm_num) (by norm_num) ha hb
      (by norm_num) (by norm_num)
  · rw [note_frequency_div 4 5 (by norm_num)]
    obtain ⟨ha, hb⟩ := rpow_div_bounds 5 12 (by norm_num)
      1.3348398541 1.3348398543 (by norm_num) (by norm_num) (by norm_num)
    exact div_abs_bound _ _ _ _ _ _ (by norm_num) (by norm_num) ha hb
      (by norm_num) (by norm_num)
  · rw [note_frequency_div 7 2 (by norm_num)]
    obtain ⟨ha, hb⟩ := rpow_div_bounds 2 12 (by norm_num)
      1.1224620482 1.1224620484 (by norm_num) (by norm_num) (by norm_num)
    exact div_abs_bound _ _ _ _ _ _ (by norm_num) (by norm_num) ha hb
      (by norm_num) (by norm_num)

/-! ## Tone synthesis (AudioPlayer.generate_rich_tone, claim C9)

Modelled at the AudioPlayer defaults: sample_rate 44100 Hz, duration 0.5 s,
hence int(44100 * 0.5) = 22050 samples at times k / 44100. -/

/-- The instrument argument of generate_rich_tone; other is the
default-branch plain sine. -/
inductive Instrument where
  | piano | bell | violin | flute | other
  deriving DecidableEq, Repr

/-- AudioPlayer default sample rate. -/
def sample_rate : ℕ := 44100

/-- int(sample_rate * duration) at the default duration 0.5 s. -/
def num_samples : ℕ := 22050

/-- The (harmonic-ratio, relative-amplitude) lists of generate_rich_tone,
per instrument, in source order. -/
noncomputable def harmonicsFor : Instrument → List (ℝ × ℝ)
  | .piano => [(1, 1), (2, 0.6), (3, 0.3), (4, 0.2)]
  | .bell => [(0.9, 0.5), (1.2, 0.7), (2.1, 0.6), (3.5, 0.4)]
  | .violin => [(1, 1), (2, 0.9), (3, 0.7), (4, 0.5), (5, 0.3), (6, 0.2)]
  | .flute => [(1, 1), (2, 0.2), (3, 0.05)]
  | .other => [(1, 1)]

open scoped Classical in
/-- AudioPlayer._adsr_envelope at time t.  The numpy mask assignments are
applied in the order attack, decay, sustain, release, each one (when its
time guard is positive) overwriting earlier ones, so the value at t is
decided by the latest applicable mask: release first, then sustain, decay,
attack, with samples touched by no mask keeping the initial ones value. -/
noncomputable def adsr_envelope (attack decay sustain release total_dur t : ℝ) : ℝ :=
  if t > total_dur - release ∧ release > 0 then
    sustain * max 0 (1 - (t - (total_dur - release)) / release)
  else if t > attack + decay ∧ t ≤ total_dur - release then sustain
  else if t > attack ∧ t ≤ attack + decay ∧ decay > 0 then
    1 - (1 - sustain) * ((t - attack) / decay)
  else if t ≤ attack ∧ attack > 0 then t / attack
  else 1

/-- The ADSR parameters (attack, decay, sustain, release) chosen by
generate_rich_tone per instrument; none for the default branch, whose
envelope is all ones. -/
noncomputable def envelope_params : Instrument → Option (ℝ × ℝ × ℝ × ℝ)
  | .piano => some (0.01, 0.3, 0.2, 0.2)
  | .bell => some (0.15, 0.1, 0.8, 0.3)
  | .violin => some (0.03, 0.05, 0.9, 0.1)
  | .flute => some (0.15, 0.02, 0.85, 0.08)
  | .other => none

/-- The envelope of generate_rich_tone at time t. -/
noncomputable def envelopeFor (inst : Instrument) (total_dur t : ℝ) : ℝ :=
  match envelope_params inst with
  | some p => adsr_envelope p.1 p.2.1 p.2.2.1 p.2.2.2 total_dur t
  | none => 1

/-- Sample k of the pre-normalization waveform: the sum over harmonics of
sin(2 pi (frequency * ratio) t) * amplitude at t = k / sample_rate. -/
noncomputable def waveSample (inst : Instrument) (frequency : ℝ) (k : ℕ) : ℝ :=
  ((harmonicsFor inst).map
    (fun h =>
      Real.sin (2 * Real.pi * (frequency * h.1) * ((k : ℝ) / (sample_rate : ℝ)))
        * h.2)).sum

/-- The pre-normalization waveform buffer. -/
noncomputable def raw_waveform (inst : Instrument) (frequency : ℝ) : List ℝ :=
  (List.range num_samples).map (waveSample inst frequency)

/-- np.max(np.abs(buffer)), as a fold (0 for an empty buffer). -/
noncomputable def peakAbs (l : List ℝ) : ℝ := l.foldr (fun x m => max |x| m) 0

open scoped Classical in
/-- The buffer right after the normalization step of generate_rich_tone:
divided by its peak when the peak is positive, untouched otherwise. -/
noncomputable def normalized_waveform (inst : Instrument) (frequency : ℝ) : List ℝ :=
  if peakAbs (raw_waveform inst frequency) > 0 then
    (raw_waveform inst frequency).map (· / peakAbs (raw_waveform inst frequency))
  else raw_waveform inst frequency

/-- t[-1], the time of the last sample. -/
noncomputable def total_duration : ℝ := ((num_samples - 1 : ℕ) : ℝ) / (sample_rate : ℝ)

/-- AudioPlayer.generate_rich_tone: normalized waveform times envelope
times the 0.6 output scale. -/
noncomputable def generate_rich_tone (inst : Instrument) (frequency : ℝ) : List ℝ :=
  List.zipWith (fun w e => w * e * 0.6)
    (normalized_waveform inst frequency)
    ((List.range num_samples).map
      (fun k : ℕ => envelopeFor inst total_duration ((k : ℝ) / (sample_rate : ℝ))))

lemma peakAbs_nil : peakAbs [] = 0 := rfl

lemma peakAbs_cons (x : ℝ) (l : List ℝ) : peakAbs (x :: l) = max |x| (peakAbs l) := rfl

/-- Every element of a buffer is bounded by its peak in absolute value. -/
lemma abs_le_peakAbs (l : List ℝ) : ∀ x ∈ l, |x| ≤ peakAbs l := by
  induction l with
  | nil => intro x hx; exact absurd hx (List.not_mem_nil x)
  | cons y l ih =>
    intro x hx
    rw [peakAbs_cons]
    rcases List.mem_cons.mp hx with rfl | hx2
    · exact le_max_left _ _
    · exact le_trans (ih x hx2) (le_max_right _ _)

/-- Dividing a buffer by a positive constant divides its peak. -/
lemma peakAbs_map_div (l : List ℝ) (m : ℝ) (hm : 0 < m) :
    peakAbs (l.map (· / m)) = peakAbs l / m := by
  induction l with
  | nil => simp [peakAbs_nil]
  | cons x l ih =>
    rw [List.map_cons, peakAbs_cons, peakAbs_cons, ih, abs_div, abs_of_pos hm,
      div_eq_mul_inv, div_eq_mul_inv, div_eq_mul_inv,
      ← max_mul_of_nonneg _ _ (inv_nonneg.mpr hm.le)]

/-- A buffer of zeros has peak zero. -/
lemma peakAbs_eq_zero (l : List ℝ) (h : ∀ x ∈ l, x = 0) : peakAbs l = 0 := by
  induction l with
  | nil => rfl
  | cons x l ih =>
    rw [peakAbs_cons, h x (List.mem_cons_self x l), abs_zero,
      ih (fun y hy => h y (List.mem_cons_of_mem x hy))]
    exact max_self 0

/-- The ADSR envelope stays within [0, 1] for sustain levels in [0, 1]
and nonnegative times. -/
lemma adsr_envelope_mem (attack decay sustain release total_dur t : ℝ)
    (hs0 : 0 ≤ sustain) (hs1 : sustain ≤ 1) (ht : 0 ≤ t) :
    0 ≤ adsr_envelope attack decay sustain release total_dur t
    ∧ adsr_envelope attack decay sustain release total_dur t ≤ 1 := by
  unfold adsr_envelope
  split_ifs with h1 h2 h3 h4
  · obtain ⟨h1a, h1b⟩ := h1
    have hmax : max 0 (1 - (t - (total_dur - release)) / release) ≤ 1 := by
      apply max_le (by norm_num)
      have hq : 0 ≤ (t - (total_dur - release)) / release :=
        div_nonneg (by linarith) (le_of_lt h1b)
      linarith
    exact ⟨mul_nonneg hs0 (le_max_left 0 _), mul_le_one hs1 (le_max_left 0 _) hmax⟩
  · exact ⟨hs0, hs1⟩
  · obtain ⟨h3a, h3b, h3c⟩ := h3
    have hq0 : 0 ≤ (t - attack) / decay := div_nonneg (by linarith) (le_of_lt h3c)
    have hq1 : (t - attack) / decay ≤ 1 := by
      rw [div_le_one h3c]
      linarith
    have hp : (1 - sustain) * ((t - attack) / decay) ≤ 1 - sustain :=
      mul_le_of_le_one_right (by linarith) hq1
    have hp0 : 0 ≤ (1 - sustain) * ((t - attack) / decay) :=
      mul_nonneg (by linarith) hq0
    exact ⟨by linarith, by linarith⟩
  · obtain ⟨h4a, h4b⟩ := h4
    exact ⟨div_nonneg ht (le_of_lt h4b), by rw [div_le_one h4b]; exact h4a⟩
  · exact ⟨by norm_num, le_refl 1⟩

/-- Every instrument's envelope stays within [0, 1] at nonnegative
times. -/
lemma envelopeFor_mem (inst : Instrument) (total_dur t : ℝ) (ht : 0 ≤ t) :
    0 ≤ envelopeFor inst total_dur t ∧ envelopeFor inst total_dur t ≤ 1 := by
  cases inst <;> simp only [envelopeFor, envelope_params] <;>
    first
      | exact ⟨by norm_num, le_refl 1⟩
      | exact adsr_envelope_mem _ _ _ _ _ _ (by norm_num) (by norm_num) ht

/-- Every post-normalization sample is at most 1 in absolute value. -/
lemma normalized_abs_le_one (inst : Instrument) (frequency : ℝ) :
    ∀ w ∈ normalized_waveform inst frequency, |w| ≤ 1 := by
  intro w hw
  unfold normalized_waveform at hw
  by_cases h : 0 < peakAbs (raw_waveform inst frequency)
  · rw [if_pos h] at hw
    obtain ⟨y, hy, rfl⟩ := List.mem_map.mp hw
    rw [abs_div, abs_of_pos h, div_le_one h]
    exact abs_le_peakAbs _ y hy
  · rw [if_neg h] at hw
    have h2 := abs_le_peakAbs _ w hw
    have h3 : |w| ≤ 0 := le_trans h2 (not_lt.mp h)
    linarith [abs_nonneg w]

/-- Membership in a zipWith comes from members of both lists. -/
lemma mem_zipWith_imp {α β γ : Type} (f : α → β → γ) :
    ∀ (l1 : List α) (l2 : List β) (x : γ), x ∈ List.zipWith f l1 l2 →
      ∃ a ∈ l1, ∃ b ∈ l2, x = f a b := by
  intro l1
  induction l1 with
  | nil => intro l2 x hx; simp at hx
  | cons a l1 ih =>
    intro l2 x hx
    cases l2 with
    | nil => simp at hx
    | cons b l2 =>
      rw [List.zipWith_cons_cons] at hx
      rcases List.mem_cons.mp hx with rfl | hx2
      · exact ⟨a, List.mem_cons_self _ _, b, List.mem_cons_self _ _, rfl⟩
      · obtain ⟨a2, ha2, b2, hb2, rfl⟩ := ih l2 x hx2
        exact ⟨a2, List.mem_cons_of_mem _ ha2, b2, List.mem_cons_of_mem _ hb2, rfl⟩

/-- C9 (amended): for every instrument profile and frequency, whenever the
pre-normalization peak is positive (the source skips normalization on an
all-zero buffer), the peak absolute sample value right after the
normalization step is exactly 1; and every sample of the returned
post-envelope buffer is at most 1 in absolute value, unconditionally. -/
theorem c9_synthesis_normalization (inst : Instrument) (frequency : ℝ) :
    (0 < peakAbs (raw_waveform inst frequency) →
      peakAbs (normalized_waveform inst frequency) = 1)
    ∧ ∀ x ∈ generate_rich_tone inst frequency, |x| ≤ 1 := by
  constructor
  · intro h
    unfold normalized_waveform
    rw [if_pos h, peakAbs_map_div _ _ h]
    exact div_self (ne_of_gt h)
  · intro x hx
    unfold generate_rich_tone at hx
    obtain ⟨w, hw, e, he, rfl⟩ := mem_zipWith_imp _ _ _ x hx
    obtain ⟨k, hk, rfl⟩ := List.mem_map.mp he
    have hw1 : |w| ≤ 1 := normalized_abs_le_one inst frequency w hw
    have ht : (0:ℝ) ≤ (k : ℝ) / (sample_rate : ℝ) :=
      div_nonneg (Nat.cast_nonneg k) (Nat.cast_nonneg sample_rate)
    obtain ⟨he0, he1⟩ := envelopeFor_mem inst total_duration _ ht
    have heabs : |envelopeFor inst total_duration ((k : ℝ) / (sample_rate : ℝ))| ≤ 1 :=
      abs_le.mpr ⟨by linarith, he1⟩
    rw [abs_mul, abs_mul]
    have h06 : |(0.6 : ℝ)| ≤ 1 := by
      rw [abs_of_pos (by norm_num : (0:ℝ) < 0.6)]
      norm_num
    exact mul_le_one (mul_le_one hw1 (abs_nonneg _) heabs) (abs_nonneg _) h06

/-- C9 counterexample: the piano profile at the Nyquist frequency 22050 Hz
(half the 44100 Hz sample rate) samples every partial at a multiple of pi,
so the buffer is identically zero, normalization is skipped, and the peak
after the normalization step is 0, not 1. -/
theorem c9_counterexample :
    peakAbs (normalized_waveform Instrument.piano 22050) ≠ 1 := by
  have s1 : ∀ k : ℕ, Real.sin (2 * Real.pi * ((22050:ℝ) * 1) *
      ((k : ℝ) / (sample_rate : ℝ))) = 0 := by
    intro k
    have harg : 2 * Real.pi * ((22050:ℝ) * 1) * ((k : ℝ) / (sample_rate : ℝ))
        = ((1 * k : ℕ) : ℝ) * Real.pi := by
      simp only [sample_rate]
      push_cast
      field_simp
      ring
    rw [harg]
    exact Real.sin_nat_mul_pi (1 * k)
  have s2 : ∀ k : ℕ, Real.sin (2 * Real.pi * ((22050:ℝ) * 2) *
      ((k : ℝ) / (sample_rate : ℝ))) = 0 := by
    intro k
    have harg : 2 * Real.pi * ((22050:ℝ) * 2) * ((k : ℝ) / (sample_rate : ℝ))
        = ((2 * k : ℕ) : ℝ) * Real.pi := by
      simp only [sample_rate]
      push_cast
      field_simp
      ring
    rw [harg]
    exact Real.sin_nat_mul_pi (2 * k)
  have s3 : ∀ k : ℕ, Real.sin (2 * Real.pi * ((22050:ℝ) * 3) *
      ((k : ℝ) / (sample_rate : ℝ))) = 0 := by
    intro k
    have harg : 2 * Real.pi * ((22050:ℝ) * 3) * ((k : ℝ) / (sample_rate : ℝ))
        = ((3 * k : ℕ) : ℝ) * Real.pi := by
      simp only [sample_rate]
      push_cast
      field_simp
      ring
    rw [harg]
    exact Real.sin_nat_mul_pi (3 * k)
  have s4 : ∀ k : ℕ, Real.sin (2 * Real.pi * ((22050:ℝ) * 4) *
      ((k : ℝ) / (sample_rate : ℝ))) = 0 := by
    intro k
    have harg : 2 * Real.pi * ((22050:ℝ) * 4) * ((k : ℝ) / (sample_rate : ℝ))
        = ((4 * k : ℕ) : ℝ) * Real.pi := by
      simp only [sample_rate]
      push_cast
      field_simp
      ring
    rw [harg]
    exact Real.sin_nat_mul_pi (4 * k)
  have hz : ∀ k : ℕ, waveSample Instrument.piano 22050 k = 0 := by
    intro k
    unfold waveSample harmonicsFor
    simp only [List.map_cons, List.map_nil, List.sum_cons, List.sum_nil]
    rw [s1 k, s2 k, s3 k, s4 k]
    norm_num
  have hraw : peakAbs (raw_waveform Instrument.piano 22050) = 0 := by
    apply peakAbs_eq_zero
    intro x hx
    obtain ⟨k, hk, rfl⟩ := List.mem_map.mp hx
    exact hz k
  unfold normalized_waveform
  rw [if_neg (by rw [hraw]; exact lt_irrefl 0), hraw]
  norm_num

/-- C9 witness: the default plain-sine instrument at 11025 Hz has sample 1
equal to sin(pi/2) = 1, so the pre-normalization peak is positive and the
theorem gives a post-normalization peak of exactly 1. -/
theorem c9_witness :
    peakAbs (normalized_waveform Instrument.other 11025) = 1 := by
  apply (c9_synthesis_normalization Instrument.other 11025).1
  have h1 : waveSample Instrument.other 11025 1 = 1 := by
    unfold waveSample harmonicsFor
    have harg : 2 * Real.pi * ((11025:ℝ) * 1) * (((1:ℕ) : ℝ) / (sample_rate : ℝ))
        = Real.pi / 2 := by
      simp only [sample_rate]
      push_cast
      field_simp
      ring
    simp only [List.map_cons, List.map_nil, List.sum_cons, List.sum_nil]
    rw [harg, Real.sin_pi_div_two]
    norm_num
  have hmem : waveSample Instrument.other 11025 1 ∈ raw_waveform Instrument.other 11025 := by
    unfold raw_waveform
    exact List.mem_map.mpr ⟨1, List.mem_range.mpr (by norm_num [num_samples]), rfl⟩
  have h2 := abs_le_peakAbs _ _ hmem
  rw [h1] at h2
  have h3 : (1:ℝ) ≤ peakAbs (raw_waveform Instrument.other 11025) := by
    simpa using h2
  linarith

end EarTraining
